import Mathlib

/-!
# NoteLecture — verification of the lecture-processing core and client layer

This development embeds, as executable Lean definitions, the parts of the
NoteLecture system that the specification describes:

* the slide-synchronization engine (`TemporalSmoother`, `TranscriptAligner`,
  `SlideMatcher`) and the orchestrator state machine of §4.4–§4.6 — these are
  modelled from the specification, since the backend service sources are not
  part of this repository snapshot;
* the client layer (`useLectureData` polling hook, `APIService.getLecture`
  response totalization, `renderStatusBadge`) — these are translated directly
  from the TypeScript sources.

Timestamps are rationals (seconds from video start); slide indices are
naturals.
-/

namespace NoteLecture

/-! ## §3 Data model -/

/-- Data model `SlideInterval`: `(startTime, endTime, slideIndex)` — the durable output of
the temporal smoother. -/
structure SlideInterval where
  startTime : ℚ
  endTime : ℚ
  slideIndex : ℕ
  deriving DecidableEq, Repr

/-- Data model `SlideVote`: `(timestamp, candidateSlideIndex | none, confidence)` — the
per-frame output of the slide matcher, input to the temporal smoother. -/
structure SlideVote where
  timestamp : ℚ
  candidateSlideIndex : Option ℕ
  confidence : ℚ
  deriving DecidableEq, Repr

/-! ## §4.4 TemporalSmoother -/

/-- Modelled from the spec: the internal state of the hysteresis/debounce
algorithm of §4.4 (the backend `slide_matching` service is not part of this
repository snapshot).  `currentSlide` is the accepted slide (initially unset),
`pending` holds a competing candidate together with its consecutive-vote count
and the timestamp of the *first* of those votes, and `done` collects the
closed intervals, newest first. -/
structure SmootherState where
  currentSlide : Option ℕ
  currentStart : ℚ
  pending : Option (ℕ × ℕ × ℚ)
  done : List SlideInterval
  deriving DecidableEq, Repr

def smootherInit : SmootherState :=
  { currentSlide := none, currentStart := 0, pending := none, done := [] }

/-- Modelled from the spec: record candidate `s` with consecutive count `k`
whose first vote was at `t0`; if `k` has reached the debounce window `M`,
switch `currentSlide` to `s`, recording the interval boundary at `t0` (the
timestamp of the first of the `M` votes). -/
def applySwitch (M : ℕ) (st : SmootherState) (s : ℕ) (k : ℕ) (t0 : ℚ) :
    SmootherState :=
  if M ≤ k then
    match st.currentSlide with
    | none =>
        { currentSlide := some s, currentStart := t0, pending := none,
          done := st.done }
    | some c =>
        { currentSlide := some s, currentStart := t0, pending := none,
          done := ⟨st.currentStart, t0, c⟩ :: st.done }
  else
    { st with pending := some (s, k, t0) }

/-- Modelled from the spec: process one `SlideVote` (§4.4).  A `none` vote
changes nothing; a vote matching `currentSlide` resets any competing
candidate's counter; a vote for a different slide increments that candidate's
consecutive counter (or starts a fresh one at this vote's timestamp). -/
def smootherStep (M : ℕ) (st : SmootherState) (v : SlideVote) : SmootherState :=
  match v.candidateSlideIndex with
  | none => st
  | some s =>
    if st.currentSlide = some s then
      { st with pending := none }
    else
      match st.pending with
      | some (p, k, t0) =>
          if p = s then applySwitch M st s (k + 1) t0
          else applySwitch M st s 1 v.timestamp
      | none => applySwitch M st s 1 v.timestamp

/-- Modelled from the spec: helper for the adjacent-merge post-condition;
`cur` is the interval currently being extended. -/
def mergeAux (cur : SlideInterval) : List SlideInterval → List SlideInterval
  | [] => [cur]
  | j :: rest =>
    if cur.slideIndex = j.slideIndex then
      mergeAux ⟨cur.startTime, j.endTime, cur.slideIndex⟩ rest
    else
      cur :: mergeAux j rest

/-- Modelled from the spec: merge temporally-adjacent intervals that share the
same `slideIndex` (the enforced post-condition of §4.4). -/
def mergeAdjacent : List SlideInterval → List SlideInterval
  | [] => []
  | i :: rest => mergeAux i rest

/-- Modelled from the spec: clip the first interval's start to `q` (§4.4 clips
it to `0`). -/
def setFirstStart (q : ℚ) : List SlideInterval → List SlideInterval
  | [] => []
  | i :: rest => ⟨q, i.endTime, i.slideIndex⟩ :: rest

/-- Modelled from the spec: close the final `currentSlide` run at the video
duration, clip the first interval's start to `0`, and merge adjacent identical
assignments.  If no candidate ever accumulated `M` consecutive hits the whole
video becomes one interval assigned to slide `0` as the defined fallback. -/
def smootherFinish (duration : ℚ) (st : SmootherState) : List SlideInterval :=
  match st.currentSlide with
  | none => [⟨0, duration, 0⟩]
  | some c =>
      mergeAdjacent (setFirstStart 0
        ((⟨st.currentStart, duration, c⟩ :: st.done).reverse))

/-- Modelled from the spec: the full §4.4 smoothing run — fold the ordered
vote sequence through the hysteresis step, then finalize. -/
def smoothVotes (M : ℕ) (duration : ℚ) (votes : List SlideVote) :
    List SlideInterval :=
  smootherFinish duration (votes.foldl (smootherStep M) smootherInit)

/-- A non-abstaining vote for slide `s` at time `t` with full confidence. -/
def voteAt (t : ℚ) (s : ℕ) : SlideVote := ⟨t, some s, 1⟩

/-- The §8 debounce vote sequence `[A]*10 ++ [B]*2 ++ [A]*10` with one vote
per second starting at `t = 0` (here `A = 1`, `B = 2`). -/
def votesBlip : List SlideVote :=
  [voteAt 0 1, voteAt 1 1, voteAt 2 1, voteAt 3 1, voteAt 4 1,
   voteAt 5 1, voteAt 6 1, voteAt 7 1, voteAt 8 1, voteAt 9 1,
   voteAt 10 2, voteAt 11 2,
   voteAt 12 1, voteAt 13 1, voteAt 14 1, voteAt 15 1, voteAt 16 1,
   voteAt 17 1, voteAt 18 1, voteAt 19 1, voteAt 20 1, voteAt 21 1]

/-- The §8 debounce vote sequence `[A]*10 ++ [B]*5 ++ [A]*10` with one vote
per second starting at `t = 0` (here `A = 1`, `B = 2`). -/
def votesSwitch : List SlideVote :=
  [voteAt 0 1, voteAt 1 1, voteAt 2 1, voteAt 3 1, voteAt 4 1,
   voteAt 5 1, voteAt 6 1, voteAt 7 1, voteAt 8 1, voteAt 9 1,
   voteAt 10 2, voteAt 11 2, voteAt 12 2, voteAt 13 2, voteAt 14 2,
   voteAt 15 1, voteAt 16 1, voteAt 17 1, voteAt 18 1, voteAt 19 1,
   voteAt 20 1, voteAt 21 1, voteAt 22 1, voteAt 23 1, voteAt 24 1]

/-- C2: with `M = 3`, a two-vote blip to `B` is absorbed (a single interval
for `A` spans the whole range), while five consecutive `B` votes force a
switch, producing `A, B, A` with the `A→B` boundary at the timestamp of the
first of the three consecutive `B` votes (`t = 10`) and the `B→A` boundary at
the first of the three consecutive returning `A` votes (`t = 15`). -/
theorem smoother_debounce :
    smoothVotes 3 22 votesBlip = [⟨0, 22, 1⟩] ∧
    smoothVotes 3 25 votesSwitch =
      [⟨0, 10, 1⟩, ⟨10, 15, 2⟩, ⟨15, 25, 1⟩] := by
  constructor <;> decide

/-! ### Interval invariants (§3) -/

/-- Adjacent intervals are glued: each interval ends exactly where the next
one starts (no gaps, no overlaps). -/
def IntervalsGlued (l : List SlideInterval) : Prop :=
  List.Chain' (fun a b => a.endTime = b.startTime) l

/-- Every interval is proper: its start does not exceed its end. -/
def IntervalsProper (l : List SlideInterval) : Prop :=
  ∀ i ∈ l, i.startTime ≤ i.endTime

theorem mergeAux_ne_nil (cur : SlideInterval) (l : List SlideInterval) :
    mergeAux cur l ≠ [] := by
  induction l generalizing cur with
  | nil => simp [mergeAux]
  | cons j rest ih =>
      simp only [mergeAux]
      split
      · exact ih _
      · simp

theorem mergeAux_head (cur : SlideInterval) (l : List SlideInterval) :
    ∀ i ∈ (mergeAux cur l).head?,
      i.slideIndex = cur.slideIndex ∧ i.startTime = cur.startTime := by
  induction l generalizing cur with
  | nil => simp [mergeAux]
  | cons j rest ih =>
      simp only [mergeAux]
      split
      · intro i hi
        exact (ih _ i hi).imp (fun h => h) (fun h => h)
      · simp

theorem mergeAux_chain_ne (cur : SlideInterval) (l : List SlideInterval) :
    List.Chain' (fun a b => a.slideIndex ≠ b.slideIndex) (mergeAux cur l) := by
  induction l generalizing cur with
  | nil => simp [mergeAux]
  | cons j rest ih =>
      simp only [mergeAux]
      split
      · exact ih _
      · rename_i hne
        rw [List.chain'_cons']
        refine ⟨fun y hy => ?_, ih j⟩
        have := (mergeAux_head j rest y hy).1
        intro hEq
        exact hne (hEq.symm ▸ this.symm ▸ rfl)

theorem mergeAdjacent_chain_ne (l : List SlideInterval) :
    List.Chain' (fun a b => a.slideIndex ≠ b.slideIndex) (mergeAdjacent l) := by
  cases l with
  | nil => simp [mergeAdjacent]
  | cons i rest => exact mergeAux_chain_ne i rest

theorem mergeAux_glued (cur : SlideInterval) (l : List SlideInterval)
    (hg : IntervalsGlued (cur :: l)) : IntervalsGlued (mergeAux cur l) := by
  induction l generalizing cur with
  | nil => simp [mergeAux, IntervalsGlued]
  | cons j rest ih =>
      unfold IntervalsGlued at hg
      rw [List.chain'_cons'] at hg
      obtain ⟨hlink, hg'⟩ := hg
      have hcj : cur.endTime = j.startTime := hlink j rfl
      simp only [mergeAux]
      split
      · apply ih
        unfold IntervalsGlued
        rw [List.chain'_cons']
        rw [List.chain'_cons'] at hg'
        exact ⟨fun y hy => hg'.1 y hy, hg'.2⟩
      · unfold IntervalsGlued
        rw [List.chain'_cons']
        refine ⟨fun y hy => ?_, ih j hg'⟩
        rw [(mergeAux_head j rest y hy).2]
        exact hcj

theorem mergeAux_proper (cur : SlideInterval) (l : List SlideInterval)
    (hg : IntervalsGlued (cur :: l)) (hp : IntervalsProper (cur :: l)) :
    IntervalsProper (mergeAux cur l) := by
  induction l generalizing cur with
  | nil =>
      intro i hi
      simp only [mergeAux, List.mem_singleton] at hi
      exact hi ▸ hp cur (by simp)
  | cons j rest ih =>
      unfold IntervalsGlued at hg
      rw [List.chain'_cons'] at hg
      obtain ⟨hlink, hg'⟩ := hg
      have hcj : cur.endTime = j.startTime := hlink j rfl
      simp only [mergeAux]
      split
      · apply ih
        · unfold IntervalsGlued
          rw [List.chain'_cons']
          rw [List.chain'_cons'] at hg'
          exact ⟨fun y hy => hg'.1 y hy, hg'.2⟩
        · intro i hi
          rcases List.mem_cons.mp hi with h | h
          · subst h
            have h1 : cur.startTime ≤ cur.endTime := hp cur (by simp)
            have h2 : j.startTime ≤ j.endTime := hp j (by simp)
            calc cur.startTime ≤ cur.endTime := h1
              _ = j.startTime := hcj
              _ ≤ j.endTime := h2
          · exact hp i (by simp [h])
      · intro i hi
        rcases List.mem_cons.mp hi with h | h
        · exact h ▸ hp cur (by simp)
        · exact ih j hg' (fun k hk => hp k (by simp [List.mem_cons.mp hk])) i h

theorem mergeAux_getLast (cur : SlideInterval) (l : List SlideInterval) :
    (mergeAux cur l).getLast?.map SlideInterval.endTime =
      ((cur :: l).getLast?).map SlideInterval.endTime := by
  induction l generalizing cur with
  | nil => simp [mergeAux]
  | cons j rest ih =>
      simp only [mergeAux]
      split
      · rw [ih]
        cases rest <;> simp
      · rw [List.getLast?_cons_cons]
        cases hm : mergeAux j rest with
        | nil => exact absurd hm (mergeAux_ne_nil j rest)
        | cons y ys =>
            rw [List.getLast?_cons_cons, ← hm]
            exact ih j

/-- Glued proper intervals are pairwise separated: every interval ends no
later than any later interval starts. -/
theorem glued_proper_pairwise (l : List SlideInterval)
    (hg : IntervalsGlued l) (hp : IntervalsProper l) :
    l.Pairwise (fun a b => a.endTime ≤ b.startTime) := by
  induction l with
  | nil => simp
  | cons i rest ih =>
      unfold IntervalsGlued at hg
      rw [List.chain'_cons'] at hg
      have hrest : IntervalsProper rest := fun k hk => hp k (by simp [hk])
      refine List.pairwise_cons.mpr ⟨?_, ih hg.2 hrest⟩
      have key : ∀ (x : SlideInterval) (m : List SlideInterval),
          IntervalsGlued m → IntervalsProper m →
          (∀ y ∈ m.head?, x.endTime = y.startTime) →
          ∀ j ∈ m, x.endTime ≤ j.startTime := by
        intro x m
        induction m generalizing x with
        | nil => intro _ _ _ j hj; simp at hj
        | cons k ks ihm =>
            intro hgm hpm hhead j hj
            have hxk : x.endTime = k.startTime := hhead k rfl
            rcases List.mem_cons.mp hj with h | h
            · exact le_of_eq (h ▸ hxk)
            · unfold IntervalsGlued at hgm
              rw [List.chain'_cons'] at hgm
              have hk2 : k.startTime ≤ k.endTime := hpm k (by simp)
              have := ihm k hgm.2
                (fun y hy => hpm y (by simp [hy])) hgm.1 j h
              calc x.endTime = k.startTime := hxk
                _ ≤ k.endTime := hk2
                _ ≤ j.startTime := this
      exact key i rest hg.2 hrest hg.1

/-- Invariant of the smoother state after processing a prefix of a sorted
vote sequence whose timestamps so far are bounded by `lo`. -/
structure SmootherInv (st : SmootherState) (lo : ℚ) : Prop where
  cur_nonneg : 0 ≤ st.currentStart
  cur_le : st.currentStart ≤ lo
  pend : ∀ p k t0, st.pending = some (p, k, t0) →
    st.currentStart ≤ t0 ∧ 0 ≤ t0 ∧ t0 ≤ lo
  unset : st.currentSlide = none → st.done = []
  done_glued : IntervalsGlued st.done.reverse
  done_proper : IntervalsProper st.done
  done_link : ∀ i ∈ st.done.head?, i.endTime = st.currentStart
  done_nonneg : ∀ i ∈ st.done, 0 ≤ i.startTime

theorem smootherInv_init : SmootherInv smootherInit 0 where
  cur_nonneg := le_refl 0
  cur_le := le_refl 0
  pend := by intro p k t0 h; simp [smootherInit] at h
  unset := fun _ => rfl
  done_glued := by simp [smootherInit, IntervalsGlued]
  done_proper := by intro i hi; simp [smootherInit] at hi
  done_link := by intro i hi; simp [smootherInit] at hi
  done_nonneg := by intro i hi; simp [smootherInit] at hi

theorem smootherInv_mono {st : SmootherState} {lo lo' : ℚ}
    (h : SmootherInv st lo) (hle : lo ≤ lo') : SmootherInv st lo' where
  cur_nonneg := h.cur_nonneg
  cur_le := h.cur_le.trans hle
  pend := fun p k t0 hp =>
    ⟨(h.pend p k t0 hp).1, (h.pend p k t0 hp).2.1,
      (h.pend p k t0 hp).2.2.trans hle⟩
  unset := h.unset
  done_glued := h.done_glued
  done_proper := h.done_proper
  done_link := h.done_link
  done_nonneg := h.done_nonneg

theorem applySwitch_inv (M : ℕ) {st : SmootherState} {lo : ℚ}
    (h : SmootherInv st lo) (s k : ℕ) {t0 : ℚ}
    (ht0 : st.currentStart ≤ t0 ∧ 0 ≤ t0 ∧ t0 ≤ lo) :
    SmootherInv (applySwitch M st s k t0) lo := by
  unfold applySwitch
  split
  · cases hcs : st.currentSlide with
    | none =>
        have hdone := h.unset hcs
        exact {
          cur_nonneg := ht0.2.1
          cur_le := ht0.2.2
          pend := by intro p k' t' hp; simp at hp
          unset := fun _ => hdone
          done_glued := by simp [hdone, IntervalsGlued]
          done_proper := by intro i hi; simp [hdone] at hi
          done_link := by intro i hi; simp [hdone] at hi
          done_nonneg := by intro i hi; simp [hdone] at hi }
    | some c =>
        exact {
          cur_nonneg := ht0.2.1
          cur_le := ht0.2.2
          pend := by intro p k' t' hp; simp at hp
          unset := by intro hc; simp at hc
          done_glued := by
            unfold IntervalsGlued
            simp only [List.reverse_cons]
            rw [List.chain'_append]
            refine ⟨h.done_glued, by simp, ?_⟩
            intro x hx y hy
            simp only [List.head?_cons, Option.mem_def, Option.some.injEq] at hy
            subst hy
            rw [List.getLast?_reverse] at hx
            exact h.done_link x hx
          done_proper := by
            intro i hi
            rcases List.mem_cons.mp hi with hEq | hmem
            · subst hEq; exact ht0.1
            · exact h.done_proper i hmem
          done_link := by
            intro i hi
            simp only [List.head?_cons, Option.mem_def, Option.some.injEq] at hi
            subst hi
            rfl
          done_nonneg := by
            intro i hi
            rcases List.mem_cons.mp hi with hEq | hmem
            · subst hEq; exact h.cur_nonneg
            · exact h.done_nonneg i hmem }
  · exact {
      cur_nonneg := h.cur_nonneg
      cur_le := h.cur_le
      pend := by
        intro p k' t' hp
        simp only [Option.some.injEq, Prod.mk.injEq] at hp
        obtain ⟨-, -, ht⟩ := hp
        exact ht ▸ ht0
      unset := h.unset
      done_glued := h.done_glued
      done_proper := h.done_proper
      done_link := h.done_link
      done_nonneg := h.done_nonneg }

theorem smootherStep_inv (M : ℕ) {st : SmootherState} {lo : ℚ}
    (h : SmootherInv st lo) (v : SlideVote) (hlo : lo ≤ v.timestamp) :
    SmootherInv (smootherStep M st v) v.timestamp := by
  have h' : SmootherInv st v.timestamp := smootherInv_mono h hlo
  obtain ⟨t, cand, conf⟩ := v
  cases cand with
  | none => exact h'
  | some s =>
      simp only [smootherStep]
      split
      · exact {
          cur_nonneg := h'.cur_nonneg
          cur_le := h'.cur_le
          pend := by intro p k t0 hp; simp at hp
          unset := h'.unset
          done_glued := h'.done_glued
          done_proper := h'.done_proper
          done_link := h'.done_link
          done_nonneg := h'.done_nonneg }
      · cases hp : st.pending with
        | none =>
            exact applySwitch_inv M h' s 1
              ⟨h'.cur_le, le_trans h'.cur_nonneg h'.cur_le, le_refl _⟩
        | some pkt =>
            obtain ⟨p, k, t0⟩ := pkt
            by_cases hps : p = s
            · simp only [hps, if_pos rfl]
              exact applySwitch_inv M h' s (k + 1)
                (hps ▸ h'.pend p k t0 hp)
            · simp only [if_neg hps]
              exact applySwitch_inv M h' s 1
                ⟨h'.cur_le, le_trans h'.cur_nonneg h'.cur_le, le_refl _⟩

theorem foldl_smoother_inv (M : ℕ) :
    ∀ (votes : List SlideVote) (st : SmootherState) (lo : ℚ),
      SmootherInv st lo →
      votes.Pairwise (fun a b => a.timestamp ≤ b.timestamp) →
      (∀ v ∈ votes, lo ≤ v.timestamp) →
      ∃ lo', lo ≤ lo' ∧ (lo' = lo ∨ ∃ v ∈ votes, v.timestamp = lo') ∧
        SmootherInv (votes.foldl (smootherStep M) st) lo' := by
  intro votes
  induction votes with
  | nil =>
      intro st lo h _ _
      exact ⟨lo, le_refl lo, Or.inl rfl, h⟩
  | cons v rest ih =>
      intro st lo h hsorted hge
      have hv : lo ≤ v.timestamp := hge v (by simp)
      have hstep := smootherStep_inv M h v hv
      rw [List.pairwise_cons] at hsorted
      obtain ⟨lo', hle', hmem', hinv'⟩ :=
        ih (smootherStep M st v) v.timestamp hstep hsorted.2
          (fun w hw => hsorted.1 w hw)
      refine ⟨lo', hv.trans hle', ?_, by simpa using hinv'⟩
      rcases hmem' with hEq | ⟨w, hw, hwl⟩
      · exact Or.inr ⟨v, by simp, hEq.symm⟩
      · exact Or.inr ⟨w, by simp [hw], hwl⟩

theorem setFirstStart_glued {l : List SlideInterval} (q : ℚ)
    (hg : IntervalsGlued l) : IntervalsGlued (setFirstStart q l) := by
  cases l with
  | nil => exact hg
  | cons i rest =>
      unfold IntervalsGlued at hg ⊢
      rw [List.chain'_cons'] at hg
      simp only [setFirstStart]
      rw [List.chain'_cons']
      exact ⟨fun y hy => hg.1 y hy, hg.2⟩

theorem setFirstStart_getLast (q : ℚ) (l : List SlideInterval) :
    (setFirstStart q l).getLast?.map SlideInterval.endTime =
      l.getLast?.map SlideInterval.endTime := by
  cases l with
  | nil => rfl
  | cons i rest =>
      cases rest with
      | nil => rfl
      | cons j rs => simp [setFirstStart, List.getLast?_cons_cons]

theorem smootherFinish_coverage (d : ℚ) (st : SmootherState) (lo : ℚ)
    (hinv : SmootherInv st lo) (hlo : lo ≤ d) (hd : 0 ≤ d) :
    smootherFinish d st ≠ [] ∧
    (smootherFinish d st).head?.map SlideInterval.startTime = some 0 ∧
    (smootherFinish d st).getLast?.map SlideInterval.endTime = some d ∧
    IntervalsGlued (smootherFinish d st) ∧
    IntervalsProper (smootherFinish d st) := by
  obtain ⟨cs, cstart, pend, done⟩ := st
  cases cs with
  | none =>
      refine ⟨by simp [smootherFinish], by simp [smootherFinish], by simp [smootherFinish],
        by simp [smootherFinish, IntervalsGlued], ?_⟩
      intro i hi
      simp only [smootherFinish, List.mem_singleton] at hi
      subst hi
      exact hd
  | some c =>
      have hcle : cstart ≤ d := le_trans hinv.cur_le hlo
      have hc0 : (0 : ℚ) ≤ cstart := hinv.cur_nonneg
      -- the raw closed-interval list, oldest first
      have hraw_glued : IntervalsGlued
          ((⟨cstart, d, c⟩ :: done : List SlideInterval).reverse) := by
        unfold IntervalsGlued
        simp only [List.reverse_cons]
        rw [List.chain'_append]
        refine ⟨hinv.done_glued, by simp, ?_⟩
        intro x hx y hy
        simp only [List.head?_cons, Option.mem_def, Option.some.injEq] at hy
        subst hy
        rw [List.getLast?_reverse] at hx
        exact hinv.done_link x hx
      have hraw_proper : ∀ i ∈ ((⟨cstart, d, c⟩ :: done : List SlideInterval).reverse),
          i.startTime ≤ i.endTime := by
        intro i hi
        rw [List.mem_reverse, List.mem_cons] at hi
        rcases hi with hEq | hmem
        · subst hEq; exact hcle
        · exact hinv.done_proper i hmem
      have hraw_nonneg : ∀ i ∈ ((⟨cstart, d, c⟩ :: done : List SlideInterval).reverse),
          (0 : ℚ) ≤ i.startTime := by
        intro i hi
        rw [List.mem_reverse, List.mem_cons] at hi
        rcases hi with hEq | hmem
        · subst hEq; exact hc0
        · exact hinv.done_nonneg i hmem
      have hraw_last : ((⟨cstart, d, c⟩ :: done : List SlideInterval).reverse).getLast?.map
          SlideInterval.endTime = some d := by
        simp only [List.reverse_cons]
        rw [List.getLast?_concat]
        rfl
      cases hraw : ((⟨cstart, d, c⟩ :: done : List SlideInterval).reverse) with
      | nil => simpa [hraw] using congrArg Option.isSome hraw_last
      | cons i rl =>
          rw [hraw] at hraw_glued hraw_proper hraw_nonneg hraw_last
          -- properties of the clipped list
          have hset_glued : IntervalsGlued (setFirstStart 0 (i :: rl)) :=
            setFirstStart_glued 0 hraw_glued
          have hset_proper : IntervalsProper (setFirstStart 0 (i :: rl)) := by
            intro x hx
            simp only [setFirstStart, List.mem_cons] at hx
            rcases hx with hEq | hmem
            · subst hEq
              have h1 : (0 : ℚ) ≤ i.startTime := hraw_nonneg i (by simp)
              have h2 : i.startTime ≤ i.endTime := hraw_proper i (by simp)
              exact le_trans h1 h2
            · exact hraw_proper x (by simp [hmem])
          have hset_last : (setFirstStart 0 (i :: rl)).getLast?.map
              SlideInterval.endTime = some d := by
            rw [setFirstStart_getLast]
            exact hraw_last
          -- now push everything through the adjacent merge
          simp only [smootherFinish, hraw, setFirstStart, mergeAdjacent]
          set fi : SlideInterval := ⟨0, i.endTime, i.slideIndex⟩ with hfi
          have hglued2 : IntervalsGlued (fi :: rl) := hset_glued
          have hproper2 : IntervalsProper (fi :: rl) := hset_proper
          refine ⟨mergeAux_ne_nil fi rl, ?_, ?_, mergeAux_glued fi rl hglued2,
            mergeAux_proper fi rl hglued2 hproper2⟩
          · cases hm : mergeAux fi rl with
            | nil => exact absurd hm (mergeAux_ne_nil fi rl)
            | cons y ys =>
                have hy := mergeAux_head fi rl y (by rw [hm]; rfl)
                simp [hy.2, hfi]
          · rw [mergeAux_getLast fi rl]
            have : ((fi :: rl).getLast?).map SlideInterval.endTime = some d := by
              cases rl with
              | nil =>
                  simp only [List.getLast?_singleton, Option.map_some]
                  cases rl2 : (setFirstStart 0 (i :: ([] : List SlideInterval))) with
                  | nil => simp [setFirstStart] at rl2
                  | cons z zs => simpa [setFirstStart] using hset_last
              | cons j rs =>
                  rw [List.getLast?_cons_cons]
                  rw [List.getLast?_cons_cons] at hraw_last
                  exact hraw_last
            exact this

/-- C1: for every valid vote sequence (sorted timestamps within `[0, d]`,
including the all-`none` and all-single-slide sequences) and every duration
`d ≥ 0`, the smoother output is nonempty, starts at `0`, ends at `d`, is
glued (no gaps, no overlaps), proper, and pairwise ordered in time. -/
theorem smoother_coverage (M : ℕ) (d : ℚ) (votes : List SlideVote)
    (hd : 0 ≤ d)
    (hsorted : votes.Pairwise (fun a b => a.timestamp ≤ b.timestamp))
    (hrange : ∀ v ∈ votes, 0 ≤ v.timestamp ∧ v.timestamp ≤ d) :
    smoothVotes M d votes ≠ [] ∧
    (smoothVotes M d votes).head?.map SlideInterval.startTime = some 0 ∧
    (smoothVotes M d votes).getLast?.map SlideInterval.endTime = some d ∧
    IntervalsGlued (smoothVotes M d votes) ∧
    IntervalsProper (smoothVotes M d votes) ∧
    (smoothVotes M d votes).Pairwise (fun a b => a.endTime ≤ b.startTime) := by
  obtain ⟨lo', hle, hmem, hinv⟩ :=
    foldl_smoother_inv M votes smootherInit 0 smootherInv_init hsorted
      (fun v hv => (hrange v hv).1)
  have hlo'd : lo' ≤ d := by
    rcases hmem with hEq | ⟨v, hv, hvl⟩
    · exact hEq ▸ hd
    · exact hvl ▸ (hrange v hv).2
  have main := smootherFinish_coverage d _ lo' hinv hlo'd hd
  exact ⟨main.1, main.2.1, main.2.2.1, main.2.2.2.1, main.2.2.2.2,
    glued_proper_pairwise _ main.2.2.2.1 main.2.2.2.2⟩

/-! ### The no-switch fallback (§4.4 edge case) -/

/-- The pending candidate's consecutive run, as an explicit replicated list. -/
def pendRun (st : SmootherState) : List ℕ :=
  match st.pending with
  | none => []
  | some (p, k, _) => List.replicate k p

theorem replicate_infix_of_le {M k : ℕ} (h : M ≤ k) (c : ℕ) (l : List ℕ) :
    List.replicate M c <:+: (List.replicate k c ++ l) := by
  have hk : M + (k - M) = k := by omega
  refine ⟨[], List.replicate (k - M) c ++ l, ?_⟩
  rw [List.nil_append, ← List.append_assoc, ← List.replicate_add, hk]

theorem replicate_run_shift (k s : ℕ) (l : List ℕ) :
    List.replicate k s ++ (s :: l) = List.replicate (k + 1) s ++ l := by
  rw [List.replicate_succ', List.append_assoc, List.singleton_append]

theorem infix_of_infix_append {l m : List ℕ} (pre : List ℕ) (h : l <:+: m) :
    l <:+: pre ++ m :=
  h.trans (List.suffix_append pre m).isInfix

theorem foldl_no_switch (M : ℕ) :
    ∀ (votes : List SlideVote) (st : SmootherState),
      st.currentSlide = none →
      (∀ c : ℕ, ¬ List.replicate M c <:+:
        (pendRun st ++ votes.filterMap SlideVote.candidateSlideIndex)) →
      (votes.foldl (smootherStep M) st).currentSlide = none := by
  intro votes
  induction votes with
  | nil => intro st hcs _; exact hcs
  | cons v rest ih =>
      intro st hcs h
      obtain ⟨t, cand, conf⟩ := v
      cases cand with
      | none =>
          rw [List.foldl_cons]
          exact ih st hcs (by simpa using h)
      | some s =>
          rw [List.foldl_cons]
          have hne : ¬ st.currentSlide = some s := by simp [hcs]
          simp only [smootherStep, if_neg hne]
          have hfm : ((⟨t, some s, conf⟩ : SlideVote) :: rest).filterMap
              SlideVote.candidateSlideIndex =
              s :: rest.filterMap SlideVote.candidateSlideIndex := by
            simp [List.filterMap_cons]
          rw [hfm] at h
          cases hp : st.pending with
          | none =>
              have hrun : pendRun st = [] := by simp [pendRun, hp]
              rw [hrun, List.nil_append] at h
              show (List.foldl (smootherStep M) (applySwitch M st s 1 t)
                rest).currentSlide = none
              by_cases hM : M ≤ 1
              · have hinf : List.replicate M s <:+:
                    s :: rest.filterMap SlideVote.candidateSlideIndex := by
                  have h1 := replicate_infix_of_le hM s
                    (rest.filterMap SlideVote.candidateSlideIndex)
                  simpa using h1
                exact absurd hinf (h s)
              · simp only [applySwitch, if_neg hM]
                apply ih
                · exact hcs
                · intro c
                  simpa [pendRun] using h c
          | some pkt =>
              obtain ⟨p, k, t0⟩ := pkt
              have hrun : pendRun st = List.replicate k p := by simp [pendRun, hp]
              rw [hrun] at h
              show (List.foldl (smootherStep M)
                (if p = s then applySwitch M st s (k + 1) t0
                 else applySwitch M st s 1 t) rest).currentSlide = none
              by_cases hps : p = s
              · subst hps
                rw [if_pos rfl, replicate_run_shift] at *
                by_cases hM : M ≤ k + 1
                · exact absurd (replicate_infix_of_le hM p
                    (rest.filterMap SlideVote.candidateSlideIndex)) (h p)
                · simp only [applySwitch, if_neg hM]
                  apply ih
                  · exact hcs
                  · intro c
                    simpa [pendRun] using h c
              · rw [if_neg hps]
                by_cases hM : M ≤ 1
                · have hinf : List.replicate M s <:+:
                      s :: rest.filterMap SlideVote.candidateSlideIndex := by
                    have h1 := replicate_infix_of_le hM s
                      (rest.filterMap SlideVote.candidateSlideIndex)
                    simpa using h1
                  exact absurd (infix_of_infix_append (List.replicate k p) hinf)
                    (h s)
                · simp only [applySwitch, if_neg hM]
                  apply ih
                  · exact hcs
                  · intro c hc
                    refine h c (infix_of_infix_append (List.replicate k p) ?_)
                    simpa [pendRun] using hc

/-- C6: if no candidate slide ever accumulates `M` consecutive non-abstaining
votes (no `M`-fold repetition occurs anywhere in the non-`none` candidate
stream), the smoother returns the single fallback interval `[0, d]` assigned
to slide `0` — a defined result, not an error. -/
theorem smoother_fallback (M : ℕ) (d : ℚ) (votes : List SlideVote)
    (h : ∀ c : ℕ, ¬ List.replicate M c <:+:
      votes.filterMap SlideVote.candidateSlideIndex) :
    smoothVotes M d votes = [⟨0, d, 0⟩] := by
  have hnone := foldl_no_switch M votes smootherInit rfl
    (by simpa [pendRun, smootherInit] using h)
  have hfin : ∀ st : SmootherState, st.currentSlide = none →
      smootherFinish d st = [⟨0, d, 0⟩] := by
    intro st h0
    obtain ⟨cs, cstart, pend, done⟩ := st
    cases cs with
    | none => rfl
    | some c => simp at h0
  exact hfin _ hnone

/-- Witness for C6: an all-`none` vote sequence (camera never on slides)
yields the single fallback interval. -/
theorem smoother_fallback_witness :
    smoothVotes 3 5 [⟨1, none, 1⟩, ⟨2, none, 1⟩, ⟨3, none, 1⟩] =
      [⟨0, 5, 0⟩] := by
  apply smoother_fallback
  intro c hc
  obtain ⟨u, v, huv⟩ := hc
  simp [List.filterMap_cons] at huv

/-- Witness for C1 at a concrete run: the coverage facts evaluated on the
blip sequence. -/
theorem smoother_coverage_witness :
    IntervalsGlued (smoothVotes 3 22 votesBlip) ∧
    IntervalsProper (smoothVotes 3 22 votesBlip) ∧
    (smoothVotes 3 22 votesBlip).head?.map SlideInterval.startTime = some 0 ∧
    (smoothVotes 3 22 votesBlip).getLast?.map SlideInterval.endTime =
      some 22 := by
  have h := smoother_coverage 3 22 votesBlip (by norm_num) (by decide)
    (by decide)
  exact ⟨h.2.2.2.1, h.2.2.2.2.1, h.2.1, h.2.2.1⟩

theorem smootherFinish_chain_ne (d : ℚ) (st : SmootherState) :
    List.Chain' (fun a b => a.slideIndex ≠ b.slideIndex)
      (smootherFinish d st) := by
  obtain ⟨cs, cstart, pend, done⟩ := st
  cases cs with
  | none => simp [smootherFinish]
  | some c => exact mergeAdjacent_chain_ne _

/-- C5: no two temporally-adjacent output intervals of the smoother share the
same `slideIndex` — enforced by the adjacent-merge post-condition for every
vote sequence, duration and debounce window. -/
theorem smoother_no_adjacent_duplicates (M : ℕ) (d : ℚ)
    (votes : List SlideVote) :
    List.Chain' (fun a b => a.slideIndex ≠ b.slideIndex)
      (smoothVotes M d votes) :=
  smootherFinish_chain_ne d _

/-! ## §4.5 TranscriptAligner -/

/-- Data model `TranscriptionSegment`: `(startTime, endTime, text, confidence, slideIndex)`
with `slideIndex` initially unset, filled exclusively by the aligner. -/
structure TranscriptionSegment where
  startTime : ℚ
  endTime : ℚ
  text : String
  confidence : ℚ
  slideIndex : Option ℕ
  deriving DecidableEq, Repr

/-- Modelled from the spec: the §4.5 linear scan over the sorted interval
list; `cur` is the interval under examination, and a segment starting at or
after the final interval's end clamps to that final interval. -/
def alignScan (cur : SlideInterval) (t : ℚ) :
    List SlideInterval → ℕ
  | [] => cur.slideIndex
  | nxt :: rest =>
      if t < cur.endTime then cur.slideIndex else alignScan nxt t rest

/-- Modelled from the spec: find the `SlideInterval` whose
`[startTime, endTime)` contains `t` and return its `slideIndex`, clamping to
the nearest interval when `t` falls before the first interval or at/after the
last interval's end (the backend aligner source is not in this snapshot). -/
def assignSlide : List SlideInterval → ℚ → ℕ
  | [], _ => 0
  | first :: rest, t =>
      if t < first.startTime then first.slideIndex
      else alignScan first t rest

/-- Modelled from the spec: fill a segment's `slideIndex` from the interval
timeline, keyed on the segment's `startTime`. -/
def alignSegment (intervals : List SlideInterval)
    (seg : TranscriptionSegment) : TranscriptionSegment :=
  { seg with slideIndex := some (assignSlide intervals seg.startTime) }

theorem mem_of_getLast_some {l : List SlideInterval} {x : SlideInterval}
    (h : l.getLast? = some x) : x ∈ l := by
  have hx : x ∈ l.getLast? := Option.mem_def.mpr h
  obtain ⟨hne, hxe⟩ := List.mem_getLast?_eq_getLast hx
  exact hxe ▸ List.getLast_mem hne

theorem alignScan_mem (t : ℚ) :
    ∀ (rest : List SlideInterval) (cur : SlideInterval),
      (cur :: rest).Pairwise (fun a b => a.endTime ≤ b.startTime) →
      ∀ i, (i = cur ∨ i ∈ rest) → i.startTime ≤ t → t < i.endTime →
        alignScan cur t rest = i.slideIndex := by
  intro rest
  induction rest with
  | nil =>
      intro cur _ i hi h1 h2
      rcases hi with rfl | h
      · rfl
      · simp at h
  | cons nxt rs ih =>
      intro cur hpw i hi h1 h2
      simp only [alignScan]
      by_cases hcur : t < cur.endTime
      · rw [if_pos hcur]
        rcases hi with rfl | hmem
        · rfl
        · exfalso
          have hsep : cur.endTime ≤ i.startTime :=
            (List.pairwise_cons.mp hpw).1 i hmem
          exact absurd hcur (not_lt.mpr (hsep.trans h1))
      · rw [if_neg hcur]
        rcases hi with rfl | hmem
        · exact absurd h2 hcur
        · exact ih nxt (List.Pairwise.of_cons hpw) i
            (List.mem_cons.mp hmem) h1 h2

theorem alignScan_clamp_end (t : ℚ) :
    ∀ (rest : List SlideInterval) (cur last : SlideInterval),
      (cur :: rest).Pairwise (fun a b => a.endTime ≤ b.startTime) →
      IntervalsProper (cur :: rest) →
      (cur :: rest).getLast? = some last →
      last.endTime ≤ t →
      alignScan cur t rest = last.slideIndex := by
  intro rest
  induction rest with
  | nil =>
      intro cur last _ _ hlast _
      simp only [List.getLast?_singleton, Option.some.injEq] at hlast
      subst hlast
      rfl
  | cons nxt rs ih =>
      intro cur last hpw hproper hlast hle
      rw [List.getLast?_cons_cons] at hlast
      have hlmem : last ∈ nxt :: rs := mem_of_getLast_some hlast
      have hcurlast : cur.endTime ≤ last.startTime :=
        (List.pairwise_cons.mp hpw).1 last hlmem
      have hlproper : last.startTime ≤ last.endTime :=
        hproper last (by simp [hlmem])
      have hcur : ¬ t < cur.endTime :=
        not_lt.mpr (hcurlast.trans (hlproper.trans hle))
      simp only [alignScan, if_neg hcur]
      exact ih nxt last (List.Pairwise.of_cons hpw)
        (fun k hk => hproper k (by simp [List.mem_cons.mp hk])) hlast hle

/-- C3: over a sorted, pairwise non-overlapping interval list, the aligner
assigns a segment the `slideIndex` of the unique interval whose
`[startTime, endTime)` contains the segment's `startTime`; a `startTime`
before the first interval's start clamps to the first interval, and one
at/after the last interval's end clamps to the last interval — never a
failure. -/
theorem aligner_containment (l : List SlideInterval)
    (seg : TranscriptionSegment)
    (hsep : l.Pairwise (fun a b => a.endTime ≤ b.startTime))
    (hproper : IntervalsProper l) :
    (∀ i ∈ l, i.startTime ≤ seg.startTime → seg.startTime < i.endTime →
      (alignSegment l seg).slideIndex = some i.slideIndex) ∧
    (∀ first ∈ l.head?, seg.startTime < first.startTime →
      (alignSegment l seg).slideIndex = some first.slideIndex) ∧
    (∀ last ∈ l.getLast?, last.endTime ≤ seg.startTime →
      (alignSegment l seg).slideIndex = some last.slideIndex) := by
  refine ⟨?_, ?_, ?_⟩
  · intro i hi h1 h2
    cases l with
    | nil => simp at hi
    | cons first rest =>
        simp only [alignSegment, Option.some.injEq]
        have hentry : ¬ seg.startTime < first.startTime := by
          rcases List.mem_cons.mp hi with rfl | hmem
          · exact not_lt.mpr h1
          · have hfi : first.endTime ≤ i.startTime :=
              (List.pairwise_cons.mp hsep).1 i hmem
            have hfp : first.startTime ≤ first.endTime :=
              hproper first (by simp)
            exact not_lt.mpr (hfp.trans (hfi.trans h1))
        simp only [assignSlide, if_neg hentry]
        exact alignScan_mem seg.startTime rest first hsep i
          (List.mem_cons.mp hi) h1 h2
  · intro first hfirst hlt
    cases l with
    | nil => simp at hfirst
    | cons x rest =>
        simp only [List.head?_cons, Option.mem_def, Option.some.injEq] at hfirst
        subst hfirst
        simp [alignSegment, assignSlide, if_pos hlt]
  · intro last hlast hle
    cases l with
    | nil => simp at hlast
    | cons first rest =>
        rw [Option.mem_def] at hlast
        have hflast : first.endTime ≤ seg.startTime := by
          cases rest with
          | nil =>
              simp only [List.getLast?_singleton, Option.some.injEq] at hlast
              exact hlast ▸ hle
          | cons nxt rs =>
              rw [List.getLast?_cons_cons] at hlast
              have hlmem : last ∈ nxt :: rs := mem_of_getLast_some hlast
              have h1 : first.endTime ≤ last.startTime :=
                (List.pairwise_cons.mp hsep).1 last hlmem
              have h2 : last.startTime ≤ last.endTime :=
                hproper last (by simp [hlmem])
              exact h1.trans (h2.trans hle)
        have hentry : ¬ seg.startTime < first.startTime := by
          have : first.startTime ≤ first.endTime := hproper first (by simp)
          exact not_lt.mpr (this.trans hflast)
        simp only [alignSegment, Option.some.injEq, assignSlide,
          if_neg hentry]
        exact alignScan_clamp_end seg.startTime rest first last hsep hproper
          hlast hle

/-- Witness for C3 on the §8 end-to-end scenario: the segment starting at
`t = 12` resolves to slide `1` by containment; clamping below and above also
evaluated on the same timeline. -/
theorem aligner_containment_witness :
    (alignSegment [⟨0, 10, 0⟩, ⟨10, 20, 1⟩, ⟨20, 30, 2⟩]
      ⟨12, 13, "text", 1, none⟩).slideIndex = some 1 ∧
    (alignSegment [⟨0, 10, 0⟩, ⟨10, 20, 1⟩, ⟨20, 30, 2⟩]
      ⟨-1, 0, "early", 1, none⟩).slideIndex = some 0 ∧
    (alignSegment [⟨0, 10, 0⟩, ⟨10, 20, 1⟩, ⟨20, 30, 2⟩]
      ⟨31, 32, "late", 1, none⟩).slideIndex = some 2 := by
  have hs : ([⟨0, 10, 0⟩, ⟨10, 20, 1⟩, ⟨20, 30, 2⟩] :
      List SlideInterval).Pairwise (fun a b => a.endTime ≤ b.startTime) := by
    decide
  have hp : IntervalsProper [⟨0, 10, 0⟩, ⟨10, 20, 1⟩, ⟨20, 30, 2⟩] := by
    unfold IntervalsProper
    decide
  refine ⟨?_, ?_, ?_⟩
  · exact (aligner_containment _ ⟨12, 13, "text", 1, none⟩ hs hp).1
      ⟨10, 20, 1⟩ (by simp) (by norm_num) (by norm_num)
  · exact (aligner_containment _ ⟨-1, 0, "early", 1, none⟩ hs hp).2.1
      ⟨0, 10, 0⟩ (by simp) (by norm_num)
  · exact (aligner_containment _ ⟨31, 32, "late", 1, none⟩ hs hp).2.2
      ⟨20, 30, 2⟩ (by simp) (by norm_num)

/-! ## §4.1–§4.3 FeatureIndexBuilder and SlideMatcher -/

/-- A visual descriptor: an integer feature vector (§4.1). -/
abbrev Descriptor := List ℤ

/-- L1 distance between descriptors (the binary-descriptor Hamming
analogue). -/
def descDist (a b : Descriptor) : ℕ :=
  (List.zipWith (fun x y => (x - y).natAbs) a b).sum

/-- A slide signature: the slide's descriptor set (§4.1); an empty signature
is valid but unmatchable. -/
abbrev Signature := List Descriptor

/-- Modelled from the spec: the nearest and second-nearest distances
(k = 2 nearest-neighbour search, §4.3 step 1); `none` when fewer than two
slide descriptors exist, making such a slide unmatchable rather than an
error. -/
def twoSmallest : List ℕ → Option (ℕ × ℕ)
  | [] => none
  | [_] => none
  | x :: y :: rest =>
      some (rest.foldl
        (fun p d =>
          if d < p.1 then (d, p.1) else if d < p.2 then (p.1, d) else p)
        (min x y, max x y))

/-- Matcher tunables: the ratio-test threshold `ratioNum/ratioDen`
(default ≈ 0.75), the absolute minimum match count, and the minimum margin
over the runner-up. -/
structure MatcherConfig where
  ratioNum : ℕ
  ratioDen : ℕ
  minMatchCount : ℕ
  margin : ℕ
  deriving DecidableEq, Repr

/-- Modelled from the spec: the ratio test (§4.3 step 2) — accept a frame
descriptor as a good match iff `nearest < (ratioNum/ratioDen) × second`. -/
def goodMatch (cfg : MatcherConfig) (sig : Signature) (q : Descriptor) :
    Bool :=
  match twoSmallest (sig.map (descDist q)) with
  | some (n1, n2) => n1 * cfg.ratioDen < n2 * cfg.ratioNum
  | none => false

/-- Modelled from the spec: a slide's match score is the count of good
matches (§4.3 step 3). -/
def matchScore (cfg : MatcherConfig) (sig : Signature)
    (frame : List Descriptor) : ℕ :=
  (frame.filter (goodMatch cfg sig)).length

/-- Modelled from the spec: score the frame against every slide. -/
def frameScores (cfg : MatcherConfig) (slides : List Signature)
    (frame : List Descriptor) : List ℕ :=
  slides.map (fun sig => matchScore cfg sig frame)

/-- The maximum score. -/
def bestScore (sc : List ℕ) : ℕ := sc.foldr max 0

/-- The index of the (first) maximum-scoring slide. -/
def bestIdx (sc : List ℕ) : ℕ := sc.indexOf (bestScore sc)

/-- The runner-up: the best score among the remaining slides. -/
def runnerUp (sc : List ℕ) : ℕ := bestScore (sc.eraseIdx (bestIdx sc))

/-- Modelled from the spec: the §4.3 assignment policy — pick the
maximum-scoring slide; require its score to exceed the absolute minimum match
count AND to exceed the runner-up by the margin, else emit `none`; a tie
within the margin favours the slide of the previous accepted vote. -/
def assignVote (cfg : MatcherConfig) (prev : Option ℕ) (sc : List ℕ) :
    Option ℕ :=
  let best := bestScore sc
  if best ≤ cfg.minMatchCount then none
  else if runnerUp sc + cfg.margin ≤ best then some (bestIdx sc)
  else
    match prev with
    | some p => if best < sc.getD p 0 + cfg.margin then some p else none
    | none => none

/-- Modelled from the spec: the full per-frame matcher §4.3 — a pure function
of the frame descriptors, the slide signatures and the previous accepted
vote. -/
def matchFrame (cfg : MatcherConfig) (slides : List Signature)
    (prev : Option ℕ) (frame : List Descriptor) : Option ℕ :=
  assignVote cfg prev (frameScores cfg slides frame)

theorem bestScore_mem (sc : List ℕ) (h : sc ≠ []) : bestScore sc ∈ sc := by
  induction sc with
  | nil => exact absurd rfl h
  | cons x xs ih =>
      by_cases hxs : xs = []
      · subst hxs; simp [bestScore]
      · have hx : bestScore (x :: xs) = max x (bestScore xs) := rfl
        rcases max_choice x (bestScore xs) with hm | hm
        · rw [hx, hm]; exact List.mem_cons_self x xs
        · rw [hx, hm]; exact List.mem_cons_of_mem x (ih hxs)

theorem getD_bestIdx (sc : List ℕ) (h : sc ≠ []) :
    sc.getD (bestIdx sc) 0 = bestScore sc := by
  have hmem : bestScore sc ∈ sc := bestScore_mem sc h
  have hlt : sc.indexOf (bestScore sc) < sc.length :=
    List.indexOf_lt_length.mpr hmem
  rw [bestIdx, List.getD_eq_getElem sc 0 hlt]
  exact List.getElem_indexOf hlt

/-- C7: the matcher's vote policy — `none` unless the maximum score exceeds
the absolute minimum AND exceeds the runner-up by the margin; when both
thresholds hold it emits the maximum-scoring slide; a tie within the margin
is resolved in favour of the previous accepted vote when that slide's score
is itself within the margin of the maximum, and to `none` otherwise. -/
theorem matcher_policy (cfg : MatcherConfig) (slides : List Signature)
    (prev : Option ℕ) (frame : List Descriptor) :
    (bestScore (frameScores cfg slides frame) ≤ cfg.minMatchCount →
      matchFrame cfg slides prev frame = none) ∧
    (cfg.minMatchCount < bestScore (frameScores cfg slides frame) →
      runnerUp (frameScores cfg slides frame) + cfg.margin ≤
        bestScore (frameScores cfg slides frame) →
      matchFrame cfg slides prev frame =
          some (bestIdx (frameScores cfg slides frame)) ∧
        (frameScores cfg slides frame).getD
            (bestIdx (frameScores cfg slides frame)) 0 =
          bestScore (frameScores cfg slides frame)) ∧
    (cfg.minMatchCount < bestScore (frameScores cfg slides frame) →
      bestScore (frameScores cfg slides frame) <
        runnerUp (frameScores cfg slides frame) + cfg.margin →
      prev = none → matchFrame cfg slides prev frame = none) ∧
    (∀ p, prev = some p →
      cfg.minMatchCount < bestScore (frameScores cfg slides frame) →
      bestScore (frameScores cfg slides frame) <
        runnerUp (frameScores cfg slides frame) + cfg.margin →
      bestScore (frameScores cfg slides frame) <
        (frameScores cfg slides frame).getD p 0 + cfg.margin →
      matchFrame cfg slides prev frame = some p) ∧
    (∀ p, prev = some p →
      cfg.minMatchCount < bestScore (frameScores cfg slides frame) →
      bestScore (frameScores cfg slides frame) <
        runnerUp (frameScores cfg slides frame) + cfg.margin →
      (frameScores cfg slides frame).getD p 0 + cfg.margin ≤
        bestScore (frameScores cfg slides frame) →
      matchFrame cfg slides prev frame = none) := by
  refine ⟨?_, ?_, ?_, ?_, ?_⟩
  · intro hlow
    simp [matchFrame, assignVote, if_pos hlow]
  · intro hhigh hmargin
    have hne : frameScores cfg slides frame ≠ [] := by
      intro hnil
      rw [hnil] at hhigh
      simp [bestScore] at hhigh
    constructor
    · simp [matchFrame, assignVote, not_le.mpr hhigh, if_pos hmargin]
    · exact getD_bestIdx _ hne
  · intro hhigh hmargin hprev
    subst hprev
    simp [matchFrame, assignVote, not_le.mpr hhigh, not_le.mpr hmargin]
  · intro p hprev hhigh hmargin htie
    subst hprev
    simp [matchFrame, assignVote, not_le.mpr hhigh, not_le.mpr hmargin]
    simpa using htie
  · intro p hprev hhigh hmargin htie
    subst hprev
    simp [matchFrame, assignVote, not_le.mpr hhigh, not_le.mpr hmargin]
    simpa using htie

/-- A two-slide demonstration deck with distinguishable content. -/
def demoSlides : List Signature :=
  [[[0, 0], [0, 4], [0, 8]], [[100, 0], [100, 4], [100, 8]]]

/-- A demonstration matcher configuration: ratio 3/4, minimum match count 2,
margin 2. -/
def demoCfg : MatcherConfig := ⟨3, 4, 2, 2⟩

/-- Witness for C7: a frame copying slide 0's descriptors is assigned
candidate 0 with a clear margin; an identical-deck ambiguity with a previous
vote for slide 1 is resolved to slide 1; an empty frame scores below the
minimum and yields `none`. -/
theorem matcher_policy_witness :
    matchFrame demoCfg demoSlides none [[0, 0], [0, 4], [0, 8]] = some 0 ∧
    matchFrame demoCfg [[[0, 0], [0, 4], [0, 8]], [[0, 0], [0, 4], [0, 8]]]
      (some 1) [[0, 0], [0, 4], [0, 8]] = some 1 ∧
    matchFrame demoCfg demoSlides none [] = none := by
  refine ⟨?_, ?_, ?_⟩
  · exact ((matcher_policy demoCfg demoSlides none
      [[0, 0], [0, 4], [0, 8]]).2.1 (by decide) (by decide)).1
  · exact (matcher_policy demoCfg
      [[[0, 0], [0, 4], [0, 8]], [[0, 0], [0, 4], [0, 8]]] (some 1)
      [[0, 0], [0, 4], [0, 8]]).2.2.2.1 1 rfl (by decide) (by decide)
      (by decide)
  · exact (matcher_policy demoCfg demoSlides none []).1 (by decide)

/-! ## §4.6 PipelineOrchestrator -/

/-- Modelled from the spec: the closed enumeration of Lecture statuses of
§4.6 — the six non-terminal processing states plus the two terminal states
`completed` and `failed`. -/
inductive Status
  | pending
  | downloading
  | processing_slides
  | transcribing
  | matching
  | saving_segments
  | completed
  | failed
  deriving DecidableEq, Repr, Fintype

/-- Modelled from the spec: each status's position along the §4.6 forward
order; `failed` is placed above every other state since it is terminal and
reachable from any non-terminal state. -/
def Status.rank : Status → ℕ
  | .pending => 0
  | .downloading => 1
  | .processing_slides => 2
  | .transcribing => 3
  | .matching => 4
  | .saving_segments => 5
  | .completed => 6
  | .failed => 7

/-- Modelled from the spec: the successor along the §4.6 forward chain. -/
def Status.next : Status → Option Status
  | .pending => some .downloading
  | .downloading => some .processing_slides
  | .processing_slides => some .transcribing
  | .transcribing => some .matching
  | .matching => some .saving_segments
  | .saving_segments => some .completed
  | .completed => none
  | .failed => none

/-- Modelled from the spec: the legal one-step status transitions (§4.6) —
strictly forward along the chain, or to `failed` from any non-terminal
state. -/
def stepOK (s t : Status) : Prop :=
  s.next = some t ∨ (t = .failed ∧ s ≠ .completed ∧ s ≠ .failed)

instance (s t : Status) : Decidable (stepOK s t) :=
  inferInstanceAs (Decidable
    (s.next = some t ∨ (t = .failed ∧ s ≠ .completed ∧ s ≠ .failed)))

theorem stepOK_rank : ∀ s t : Status, stepOK s t → s.rank < t.rank := by
  decide

theorem stepOK_not_from_failed : ∀ t : Status, ¬ stepOK .failed t := by
  decide

theorem chain'_drop_left {α : Type} {R : α → α → Prop} :
    ∀ (l1 l2 : List α), List.Chain' R (l1 ++ l2) → List.Chain' R l2 := by
  intro l1
  induction l1 with
  | nil => intro l2 h; exact h
  | cons x xs ih =>
      intro l2 h
      exact ih l2 (List.Chain'.tail h)

/-- C4: along any trace of orchestrator statuses that starts at `pending`
and follows the §4.6 transition relation, the ranks are strictly increasing
(so the non-`failed` statuses form a strictly increasing subsequence of the
defined order), no status is ever revisited, anything after a `failed` is
impossible (so `failed` occurs at most once, as the terminal element), and
in particular `completed` never follows `failed`. -/
theorem pipeline_monotone (tr : List Status)
    (h0 : tr.head? = some .pending)
    (hc : List.Chain' stepOK tr) :
    (tr.filter (fun s => s ≠ .failed)).Pairwise
      (fun a b => a.rank < b.rank) ∧
    tr.Nodup ∧
    (∀ l1 l2, tr = l1 ++ Status.failed :: l2 → l2 = []) ∧
    (∀ l1 l2, tr = l1 ++ Status.failed :: l2 → Status.completed ∉ l2) := by
  have hrank : List.Chain' (fun a b : Status => a.rank < b.rank) tr :=
    List.Chain'.imp (fun a b h => stepOK_rank a b h) hc
  haveI : IsTrans Status (fun a b : Status => a.rank < b.rank) :=
    ⟨fun _ _ _ h1 h2 => h1.trans h2⟩
  have hpw : tr.Pairwise (fun a b : Status => a.rank < b.rank) :=
    List.chain'_iff_pairwise.mp hrank
  have hfail : ∀ l1 l2, tr = l1 ++ Status.failed :: l2 → l2 = [] := by
    intro l1 l2 hEq
    cases l2 with
    | nil => rfl
    | cons x l2tl =>
        exfalso
        have hsuf : List.Chain' stepOK (Status.failed :: x :: l2tl) :=
          chain'_drop_left l1 _ (hEq ▸ hc)
        exact stepOK_not_from_failed x (List.chain'_cons.mp hsuf).1
  refine ⟨List.Pairwise.filter _ hpw, ?_, hfail, ?_⟩
  · exact hpw.imp (fun hab hEq => absurd (hEq ▸ hab) (lt_irrefl _))
  · intro l1 l2 hEq
    rw [hfail l1 l2 hEq]
    exact List.not_mem_nil _

/-- Witness for C4: a concrete run that fails mid-pipeline. -/
theorem pipeline_monotone_witness :
    (([Status.pending, Status.downloading, Status.processing_slides,
        Status.failed].filter (fun s => s ≠ Status.failed)).Pairwise
      (fun a b => a.rank < b.rank)) ∧
    ([Status.pending, Status.downloading, Status.processing_slides,
        Status.failed] : List Status).Nodup := by
  have h := pipeline_monotone
    [Status.pending, Status.downloading, Status.processing_slides,
      Status.failed] (by decide)
    (by
      simp only [List.chain'_cons, List.chain'_singleton, and_true]
      exact ⟨by decide, by decide, by decide⟩)
  exact ⟨h.1, h.2.1⟩

/-! ## §6 Status surface and the client status badge -/

/-- Data model `Slide` (§3): ordinal index, rendered-image reference, optional
summary. -/
structure Slide where
  index : ℕ
  imageRef : String
  summary : Option String
  deriving DecidableEq, Repr

/-- Persisted Lecture row plus its child rows (§6). -/
structure LectureRecord where
  title : String
  status : Status
  duration : ℚ
  slides : List Slide
  segments : List TranscriptionSegment
  deriving DecidableEq, Repr

/-- The body of the single status read endpoint. -/
structure StatusView where
  status : Status
  slides : List Slide
  transcription : List TranscriptionSegment
  deriving DecidableEq, Repr

/-- Modelled from the spec: the §6 status surface — a single read endpoint
returning the Lecture's current `status`, plus, once `completed`, the full
Slide list and TranscriptionSegment list (the backend route handler is not
part of this repository snapshot). -/
def readLectureStatus (lec : LectureRecord) : StatusView :=
  { status := lec.status
    slides := if lec.status = .completed then lec.slides else []
    transcription := if lec.status = .completed then lec.segments else [] }

/-- The wire string for each status, as consumed by the frontend. -/
def statusString : Status → String
  | .pending => "pending"
  | .downloading => "downloading"
  | .processing_slides => "processing_slides"
  | .transcribing => "transcribing"
  | .matching => "matching"
  | .saving_segments => "saving_segments"
  | .completed => "completed"
  | .failed => "failed"

/-- The badge kinds rendered by the lecture header. -/
inductive StatusBadge
  | completedBadge
  | failedBadge
  | processingBadge
  | unknownBadge (raw : String)
  deriving DecidableEq, Repr

/-- Translated from `LectureHeader.tsx` (`renderStatusBadge`): `completed`
and `failed` get dedicated badges, the seven known in-flight strings get the
spinner badge, anything else falls through to a raw-text badge. -/
def renderStatusBadge (status : String) : StatusBadge :=
  match status with
  | "completed" => .completedBadge
  | "failed" => .failedBadge
  | "pending" | "processing" | "processing_slides" | "downloading"
  | "transcribing" | "matching" | "saving_segments" => .processingBadge
  | other => .unknownBadge other

/-- The six non-terminal states of §4.6. -/
def sixStates : List Status :=
  [.pending, .downloading, .processing_slides, .transcribing, .matching,
   .saving_segments]

/-- The full §4.6 enumeration. -/
def sectionStates : List Status :=
  [.pending, .downloading, .processing_slides, .transcribing, .matching,
   .saving_segments, .completed, .failed]

/-- A completed demonstration lecture. -/
def demoCompletedLecture : LectureRecord :=
  { title := "Demo"
    status := .completed
    duration := 30
    slides := [⟨0, "s0.png", none⟩, ⟨1, "s1.png", none⟩]
    segments := [⟨12, 13, "text", 1, some 1⟩] }

/-- Counterexample for C8 as stated: §4.6 enumerates eight statuses, not
six, and the endpoint reports a completed lecture's status as `completed`,
which is not among the six non-terminal states — so the returned status is
not in general "one of the six states enumerated in §4.6". -/
theorem status_surface_counterexample :
    (readLectureStatus demoCompletedLecture).status ∉ sixStates ∧
    sectionStates.length = 8 ∧
    (∀ s : Status, s ∈ sectionStates) := by
  refine ⟨by decide, rfl, ?_⟩
  intro s
  cases s <;> simp [sectionStates]

/-- C8 (amended): the status read endpoint reports the lecture's current
status as one of the eight §4.6 statuses (all of which the client badge
renderer recognises — none falls through to the raw-text badge), and once
the status is `completed` it additionally returns the full Slide list and
the full TranscriptionSegment list, each segment carrying its resolved
`slideIndex`. -/
theorem status_surface (lec : LectureRecord)
    (hres : lec.status = .completed →
      ∀ seg ∈ lec.segments, seg.slideIndex ≠ none) :
    (readLectureStatus lec).status ∈ sectionStates ∧
    (∀ raw, renderStatusBadge (statusString (readLectureStatus lec).status) ≠
      StatusBadge.unknownBadge raw) ∧
    (lec.status = .completed →
      (readLectureStatus lec).slides = lec.slides ∧
      (readLectureStatus lec).transcription = lec.segments ∧
      ∀ seg ∈ (readLectureStatus lec).transcription,
        seg.slideIndex ≠ none) := by
  refine ⟨?_, ?_, ?_⟩
  · show lec.status ∈ sectionStates
    cases h : lec.status <;> simp [sectionStates]
  · intro raw
    show renderStatusBadge (statusString lec.status) ≠ _
    cases h : lec.status <;> simp [statusString, renderStatusBadge]
  · intro hcomp
    refine ⟨by simp [readLectureStatus, hcomp], by simp [readLectureStatus, hcomp], ?_⟩
    intro seg hseg
    simp only [readLectureStatus, hcomp, if_pos rfl] at hseg
    exact hres hcomp seg hseg

/-- Witness for C8 (amended) on the demonstration lecture. -/
theorem status_surface_witness :
    (readLectureStatus demoCompletedLecture).status ∈ sectionStates ∧
    (readLectureStatus demoCompletedLecture).slides =
      demoCompletedLecture.slides ∧
    (readLectureStatus demoCompletedLecture).transcription =
      demoCompletedLecture.segments := by
  have h := status_surface demoCompletedLecture
    (by intro _ seg hseg; simp [demoCompletedLecture] at hseg; simp [hseg])
  have h3 := h.2.2 rfl
  exact ⟨h.1, h3.1, h3.2.1⟩

/-! ## `useLectureData` polling hook (frontend) -/

/-- A live polling interval: its id plus the `pollingIntervalId` value that
was captured by the `fetchLecture` closure its callback invokes — the
closure of the render in which the interval was created. -/
structure PollTimer where
  tid : ℕ
  capPid : Option ℕ
  deriving DecidableEq, Repr

/-- The hook-relevant component state: the `pollingIntervalId` React state,
the intervals currently registered with the browser, and a fresh-id
counter. -/
structure HookState where
  pid : Option ℕ
  timers : List PollTimer
  nextId : ℕ
  deriving DecidableEq, Repr

def initHook : HookState := ⟨none, [], 1⟩

/-- Translated from `useLectureData.tsx` (`stopPolling`): both the guard and
the `clearInterval` argument use the closure-captured `pollingIntervalId`
(`cap`); when the captured value is null the whole body is skipped. -/
def stopPolling (cap : Option ℕ) (s : HookState) : HookState :=
  match cap with
  | none => s
  | some t =>
      { s with timers := s.timers.filter (fun tm => tm.tid ≠ t), pid := none }

inductive FetchOutcome
  | ok (status : String)
  | err
  deriving DecidableEq, Repr

/-- Translated from `useLectureData.tsx` (`fetchLecture` success/error
continuations): `cap` is the `pollingIntervalId` captured by the executing
closure and `spinner` is `showLoadingSpinner`.  On success with a
non-terminal status, a new 15000 ms interval is created only when the
captured id is null and the spinner was requested; its callback invokes the
creating render's `fetchLecture`, so the new timer records `cap` as its
captured id. -/
def onFetchDone (cap : Option ℕ) (spinner : Bool) (out : FetchOutcome)
    (s : HookState) : HookState :=
  match out with
  | .err => stopPolling cap s
  | .ok st =>
      if st ≠ "completed" ∧ st ≠ "failed" then
        if cap = none ∧ spinner then
          { pid := some s.nextId,
            timers := s.timers ++ [⟨s.nextId, cap⟩],
            nextId := s.nextId + 1 }
        else s
      else stopPolling cap s

inductive HookEvent
  | userFetch (spinner : Bool) (out : FetchOutcome)
  | timerFire (tid : ℕ) (out : FetchOutcome)
  deriving DecidableEq, Repr

/-- One scheduler step: a fetch initiated from the latest render (initial
load, effect re-run, or manual refresh) executes the current closure, which
captured the current `pollingIntervalId`; a timer tick executes the closure
captured at interval creation. -/
def hookStep (s : HookState) (e : HookEvent) : HookState :=
  match e with
  | .userFetch spinner out => onFetchDone s.pid spinner out s
  | .timerFire tid out =>
      match s.timers.find? (fun tm => tm.tid = tid) with
      | some tm => onFetchDone tm.capPid false out s
      | none => s

/-- The hook state after a sequence of fetch completions, starting from the
initial mount. -/
def hookRun (events : List HookEvent) : HookState :=
  events.foldl hookStep initHook

/-- The reachable-state invariant: either no timer exists and
`pollingIntervalId` is null, or exactly one timer exists, registered under
the current `pollingIntervalId`, and its callback's closure captured a null
`pollingIntervalId`. -/
def HookInv (s : HookState) : Prop :=
  (s.pid = none ∧ s.timers = []) ∨
  (∃ tm, s.pid = some tm.tid ∧ s.timers = [tm] ∧ tm.capPid = none)

theorem hookStep_inv (s : HookState) (e : HookEvent) (h : HookInv s) :
    HookInv (hookStep s e) := by
  obtain ⟨pid, timers, nextId⟩ := s
  rcases h with ⟨hp, ht⟩ | ⟨tm, hp, ht, hcap⟩ <;>
    simp only at hp ht
  · subst hp; subst ht
    cases e with
    | userFetch spinner out =>
        cases out with
        | err => exact Or.inl ⟨rfl, rfl⟩
        | ok st =>
            simp only [hookStep, onFetchDone]
            split
            · split
              · rename_i hcs
                exact Or.inr ⟨⟨nextId, none⟩, rfl, rfl, rfl⟩
              · exact Or.inl ⟨rfl, rfl⟩
            · exact Or.inl ⟨rfl, rfl⟩
    | timerFire tid out =>
        simp only [hookStep, List.find?_nil]
        exact Or.inl ⟨rfl, rfl⟩
  · subst hp; subst ht
    cases e with
    | userFetch spinner out =>
        cases out with
        | err =>
            simp only [hookStep, onFetchDone, stopPolling]
            refine Or.inl ⟨rfl, ?_⟩
            simp [List.filter]
        | ok st =>
            simp only [hookStep, onFetchDone]
            split
            · split
              · rename_i hcs
                simp at hcs
              · exact Or.inr ⟨tm, rfl, rfl, hcap⟩
            · simp only [stopPolling]
              refine Or.inl ⟨rfl, ?_⟩
              simp [List.filter]
    | timerFire tid out =>
        by_cases htid : tm.tid = tid
        · have hfind : List.find? (fun tm2 => tm2.tid = tid) [tm] =
              some tm := by simp [htid]
          simp only [hookStep, hfind, hcap]
          cases out with
          | err => exact Or.inr ⟨tm, rfl, rfl, hcap⟩
          | ok st =>
              simp only [onFetchDone, stopPolling]
              split
              · rw [if_neg (by simp)]
                exact Or.inr ⟨tm, rfl, rfl, hcap⟩
              · exact Or.inr ⟨tm, rfl, rfl, hcap⟩
        · have hfind : List.find? (fun tm2 => tm2.tid = tid) [tm] =
              none := by simp [htid]
          simp only [hookStep, hfind]
          exact Or.inr ⟨tm, rfl, rfl, hcap⟩

theorem hookRun_inv (events : List HookEvent) : HookInv (hookRun events) := by
  have main : ∀ (evs : List HookEvent) (s : HookState), HookInv s →
      HookInv (evs.foldl hookStep s) := by
    intro evs
    induction evs with
    | nil => intro s h; exact h
    | cons e rest ih => intro s h; exact ih _ (hookStep_inv s e h)
  exact main events initHook (Or.inl ⟨rfl, rfl⟩)

/-- C9: the first half of the claim holds — at most one polling timer ever
exists — but the second half fails on the code: after the initial fetch
observes a processing status and starts the timer, a timer-driven fetch
observing `completed` runs `stopPolling` through the stale closure whose
captured `pollingIntervalId` is null, so `clearInterval` is skipped and the
timer remains registered; polling does not stop. -/
theorem polling_stale_closure_bug :
    (∀ events : List HookEvent, (hookRun events).timers.length ≤ 1) ∧
    (hookRun [.userFetch true (.ok "pending"),
              .timerFire 1 (.ok "completed")]).timers = [⟨1, none⟩] := by
  constructor
  · intro events
    rcases hookRun_inv events with ⟨-, ht⟩ | ⟨tm, -, ht, -⟩ <;> simp [ht]
  · decide

/-! ## `APIService.getLecture` (frontend) -/

/-- A transcription segment as the backend serialises it (`id` numeric). -/
structure RawSegment where
  id : ℕ
  startTime : ℚ
  endTime : ℚ
  text : String
  confidence : ℚ
  slideIndex : ℕ
  deriving DecidableEq, Repr

/-- A transcription segment as the frontend consumes it (`id` stringified,
from `index.ts`). -/
structure FrontendSegment where
  id : String
  startTime : ℚ
  endTime : ℚ
  text : String
  confidence : ℚ
  slideIndex : ℕ
  deriving DecidableEq, Repr

/-- A slide as the frontend consumes it (from `index.ts`). -/
structure FrontendSlide where
  imageUrl : String
  index : ℕ
  summary : Option String
  deriving DecidableEq, Repr

/-- The relevant shape of `response.data` from the transcription endpoint;
`none` models an absent field. -/
structure BackendLectureData where
  title : Option String
  status : Option String
  notes : Option String
  slides : Option (List FrontendSlide)
  transcription : Option (List RawSegment)
  deriving DecidableEq, Repr

/-- The frontend `Lecture` object (from `index.ts`). -/
structure Lecture where
  lecture_id : ℕ
  title : String
  status : String
  notes : Option String
  slides : List FrontendSlide
  transcription : List FrontendSegment
  deriving DecidableEq, Repr

/-- JavaScript `a || dflt` on an optional string: an absent, null or empty
value is falsy and yields the default. -/
def jsStringOrDefault (v : Option String) (dflt : String) : String :=
  match v with
  | none => dflt
  | some s => if s = "" then dflt else s

/-- Translated from `api.ts` (`APIService.getLecture` segment mapping):
stringify the id, copy the rest. -/
def formatSegment (seg : RawSegment) : FrontendSegment :=
  ⟨toString seg.id, seg.startTime, seg.endTime, seg.text, seg.confidence,
    seg.slideIndex⟩

/-- Translated from `api.ts` (`APIService.getLecture`): build the `Lecture`
object from `response.data`, totalizing missing fields — `title` defaults to
"Lecture {id}", `status` defaults to `'completed'`, `slides` and
`transcription` default to `[]`. -/
def getLecture (idNum : ℕ) (data : BackendLectureData) : Lecture :=
  { lecture_id := idNum
    title := jsStringOrDefault data.title ("Lecture " ++ toString idNum)
    status := jsStringOrDefault data.status "completed"
    notes := data.notes
    slides := data.slides.getD []
    transcription := (data.transcription.getD []).map formatSegment }

/-- C10: `getLecture` totalizes missing response fields — an absent or empty
`status` is reported as `'completed'`, an absent `slides` field becomes the
empty slide list, and an absent `transcription` field becomes the empty
segment list; so a response lacking a status is presented to the UI as a
completed lecture. -/
theorem getLecture_totalizes (idNum : ℕ) (data : BackendLectureData) :
    ((data.status = none ∨ data.status = some "") →
      (getLecture idNum data).status = "completed") ∧
    (data.slides = none → (getLecture idNum data).slides = []) ∧
    (data.transcription = none →
      (getLecture idNum data).transcription = []) := by
  refine ⟨?_, ?_, ?_⟩
  · rintro (h | h) <;> simp [getLecture, jsStringOrDefault, h]
  · intro h
    simp [getLecture, h]
  · intro h
    simp [getLecture, h]

/-- Witness for C10: the fully-absent response is presented as an empty
completed lecture. -/
theorem getLecture_totalizes_witness :
    (getLecture 7 ⟨none, none, none, none, none⟩).status = "completed" ∧
    (getLecture 7 ⟨none, none, none, none, none⟩).slides = [] ∧
    (getLecture 7 ⟨none, none, none, none, none⟩).transcription = [] := by
  have h := getLecture_totalizes 7 ⟨none, none, none, none, none⟩
  exact ⟨h.1 (Or.inl rfl), h.2.1 rfl, h.2.2 rfl⟩

end NoteLecture
